import Mathlib

/-!
Verification of the client-side highlight normalization pass in
`src/assets/js/highlight-init.js`.

The DOM is modelled as a rose tree of element and text nodes.  Nodes are
addressed by paths (lists of child indices from the root).  The pass is the
direct translation of the script: it enumerates `pre code` blocks in document
order (a static snapshot, as `querySelectorAll` returns), then for each block,
in order, strips Rouge-generated spans, resolves a `language-*` class from the
nearest `.highlighter-rouge` ancestor of the block's parent (or the parent
itself), adds it to the block when missing, and invokes the highlight engine.
The engine (`window.hljs.highlightElement`) is an external capability whose
internal behaviour is out of scope; its invocation is recorded in a log and it
performs no document mutation of its own, per the specification's external
interface section.
-/

namespace HighlightInit

/-- A DOM node: a text node, or an element with a tag, a class token list
(`classList`), and children. -/
inductive Node where
  | text (s : String)
  | elem (tag : String) (classes : List String) (children : List Node)

mutual

/-- Structural equality test for nodes. -/
def Node.beq : Node → Node → Bool
  | .text s, .text t => s == t
  | .elem t1 k1 c1, .elem t2 k2 c2 => t1 == t2 && k1 == k2 && beqList c1 c2
  | _, _ => false

/-- Structural equality test for lists of nodes. -/
def beqList : List Node → List Node → Bool
  | [], [] => true
  | a :: as, b :: bs => Node.beq a b && beqList as bs
  | _, _ => false

end

mutual

theorem Node.beq_iff : ∀ a b : Node, Node.beq a b = true ↔ a = b
  | .text s, .text t => by simp [Node.beq]
  | .text _, .elem _ _ _ => by simp [Node.beq]
  | .elem _ _ _, .text _ => by simp [Node.beq]
  | .elem t1 k1 c1, .elem t2 k2 c2 => by
    simp [Node.beq, beqList_iff c1 c2, and_assoc]

theorem beqList_iff : ∀ as bs : List Node, beqList as bs = true ↔ as = bs
  | [], [] => by simp [beqList]
  | [], _ :: _ => by simp [beqList]
  | _ :: _, [] => by simp [beqList]
  | a :: as, b :: bs => by
    simp [beqList, Node.beq_iff a b, beqList_iff as bs]

end

instance : DecidableEq Node := fun a b =>
  decidable_of_iff (Node.beq a b = true) (Node.beq_iff a b)

mutual

/-- `textContent`: concatenation of all text node data under a node, in order. -/
def Node.textContent : Node → String
  | .text s => s
  | .elem _ _ cs => textContentList cs

/-- `textContent` of a list of sibling nodes, concatenated in order. -/
def textContentList : List Node → String
  | [] => ""
  | c :: cs => c.textContent ++ textContentList cs

end

/-- Whether a node is a `span` element. -/
def Node.isSpan : Node → Bool
  | .elem t _ _ => t == "span"
  | .text _ => false

mutual

/-- Whether a node has a `span` element among its strict descendants
(`code.querySelector("span")` is non-null). -/
def Node.hasSpanDesc : Node → Bool
  | .text _ => false
  | .elem _ _ cs => hasSpanList cs

/-- Whether a list of sibling subtrees contains a `span` element anywhere. -/
def hasSpanList : List Node → Bool
  | [] => false
  | c :: cs => c.isSpan || c.hasSpanDesc || hasSpanList cs

end

/-- Whether a node is an element. -/
def Node.isElem : Node → Bool
  | .elem _ _ _ => true
  | .text _ => false

/-- The tag of an element node. -/
def Node.tagOf : Node → Option String
  | .elem t _ _ => some t
  | .text _ => none

/-- The class token list of a node (`classList`; empty for text nodes). -/
def Node.classesOf : Node → List String
  | .elem _ k _ => k
  | .text _ => []

/-- The children of a node. -/
def Node.childrenOf : Node → List Node
  | .elem _ _ cs => cs
  | .text _ => []

mutual

/-- The number of element nodes in a subtree (the node itself included). -/
def Node.countElems : Node → Nat
  | .text _ => 0
  | .elem _ _ cs => 1 + countElemsList cs

/-- The number of element nodes in a list of sibling subtrees. -/
def countElemsList : List Node → Nat
  | [] => 0
  | c :: cs => c.countElems + countElemsList cs

end

/-- Look up the node at a path (list of child indices) from a root node. -/
def getAt : List Nat → Node → Option Node
  | [], n => some n
  | _ :: _, .text _ => none
  | i :: p, .elem _ _ cs =>
    match cs[i]? with
    | some c => getAt p c
    | none => none

/-- Apply `f` to the element at index `i` of a list, when present. -/
def listModify : Nat → (α → α) → List α → List α
  | _, _, [] => []
  | 0, f, x :: xs => f x :: xs
  | i + 1, f, x :: xs => x :: listModify i f xs

/-- Apply `f` to the node at a path; the tree is unchanged when the path does
not resolve. -/
def modifyAt : List Nat → (Node → Node) → Node → Node
  | [], f, n => f n
  | _ :: _, _, .text s => .text s
  | i :: p, f, .elem t k cs => .elem t k (listModify i (modifyAt p f) cs)

mutual

/-- Document-order enumeration of `document.querySelectorAll("pre code")`:
paths of `code` elements having a `pre` ancestor.  `u` records whether the
current node lies under a `pre`; `pref` is the path of the current node. -/
def enumAux : Node → Bool → List Nat → List (List Nat)
  | .text _, _, _ => []
  | .elem t _ cs, u, pref =>
    (if u && t == "code" then [pref] else []) ++ enumList cs (u || t == "pre") pref 0

/-- Enumeration over a list of siblings, the first having child index `i`. -/
def enumList : List Node → Bool → List Nat → Nat → List (List Nat)
  | [], _, _, _ => []
  | c :: cs, u, pref, i => enumAux c u (pref ++ [i]) ++ enumList cs u pref (i + 1)

end

/-- The static snapshot of `pre code` block paths for a document root. -/
def enumBlocksOf (root : Node) : List (List Nat) := enumAux root false []

/-- The Legacy Markup Stripper
(`if (code.querySelector("span")) code.textContent = code.textContent`):
when the block contains a span descendant, its children are replaced by the
single text node holding its text content (no node at all when that text is
empty, as the DOM `textContent` setter does). -/
def stripIfSpan : Node → Node
  | .text s => .text s
  | .elem t k cs =>
    if hasSpanList cs then
      .elem t k (if textContentList cs == "" then [] else [.text (textContentList cs)])
    else .elem t k cs

/-- The element itself followed by its ancestors up to the root, nearest
first: the chain `closest` inspects, as paths. -/
def ancestorPaths (p : List Nat) : List (List Nat) :=
  ((List.range (p.length + 1)).reverse).map fun n => p.take n

/-- Whether the node at path `a` carries the `highlighter-rouge` marker class. -/
def hasMarkerAt (root : Node) (a : List Nat) : Bool :=
  match getAt a root with
  | some n => n.classesOf.contains "highlighter-rouge"
  | none => false

/-- `pre.closest(".highlighter-rouge")`: the nearest self-or-ancestor of the
node at `q` carrying the marker class, as a path. -/
def closestRouge (root : Node) (q : List Nat) : Option (List Nat) :=
  (ancestorPaths q).find? fun a => hasMarkerAt root a

/-- `const langSource = wrapper || pre`: the class source for a block whose
parent is at `pp`. -/
def classSourcePath (root : Node) (pp : List Nat) : List Nat :=
  match closestRouge root pp with
  | some w => w
  | none => pp

/-- The class token list of the node at a path (empty when absent). -/
def classesAt (root : Node) (q : List Nat) : List String :=
  match getAt q root with
  | some n => n.classesOf
  | none => []

/-- JS `cls.startsWith(pre)`: whether `pre` is a prefix of `cls`, as character
sequences. -/
def strStartsWith (s pre : String) : Bool := pre.data.isPrefixOf s.data

/-- `Array.from(langSource.classList).find(cls => cls.startsWith("language-"))`
for the block whose parent is at `pp`. -/
def resolveLangClass (root : Node) (pp : List Nat) : Option String :=
  (classesAt root (classSourcePath root pp)).find? fun cls => strStartsWith cls "language-"

/-- `if (langClass && !code.classList.contains(langClass))
code.classList.add(langClass)`: append the resolved class when present and not
already a class of the block. -/
def applyLangClass (lc : Option String) : Node → Node
  | .text s => .text s
  | .elem t k cs =>
    match lc with
    | some c => if k.contains c then .elem t k cs else .elem t (k ++ [c]) cs
    | none => .elem t k cs

/-- The mutation the pass applies to a block node: strip spans, then add the
resolved language class. -/
def blockMutation (lc : Option String) (n : Node) : Node :=
  applyLangClass lc (stripIfSpan n)

/-- One iteration of the `forEach` body for the block at path `p`: look the
block up in the current document, return unchanged (skip) when it is gone or
has no parent element (`if (!pre) return`), otherwise strip spans, resolve and
add the language class, and record the `hljs.highlightElement` invocation in
the log.  Stripping and class addition commute with the ancestor reads here
because they mutate only the block node itself, which is never its own class
source. -/
def processBlock (root : Node) (log : List (List Nat)) (p : List Nat) :
    Node × List (List Nat) :=
  match getAt p root with
  | none => (root, log)
  | some _ =>
    match getAt p.dropLast root, p with
    | some _, _ :: _ =>
      (modifyAt p (blockMutation (resolveLangClass root p.dropLast)) root, log ++ [p])
    | _, _ => (root, log)

/-- One fold step of the pass. -/
def runStep (acc : Node × List (List Nat)) (p : List Nat) : Node × List (List Nat) :=
  processBlock acc.1 acc.2 p

/-- The whole pass: `if (!window.hljs) return;` then the `forEach` over the
static snapshot of blocks.  Returns the final document and the log of highlight
invocations, in order. -/
def highlightInit (hljsPresent : Bool) (root : Node) : Node × List (List Nat) :=
  if hljsPresent then (enumBlocksOf root).foldl runStep (root, [])
  else (root, [])

/-- Following the spec's words for claim comparison: the block's content
contains nested markup elements, i.e. some element node occurs among its
descendants (equivalently, among its children, since a topmost nested element
is a child). -/
def hasNestedMarkup (n : Node) : Bool :=
  n.childrenOf.any fun c => c.isElem

/-- The text content of the node at a path (empty when absent). -/
def textAt (root : Node) (q : List Nat) : String :=
  match getAt q root with
  | some n => n.textContent
  | none => ""

/-- The tag of the node at a path. -/
def tagAt (root : Node) (q : List Nat) : Option String :=
  (getAt q root).bind Node.tagOf

/-- The number of children of the element at a path. -/
def childCountAt (root : Node) (q : List Nat) : Option Nat :=
  match getAt q root with
  | some (.elem _ _ cs) => some cs.length
  | some (.text _) => none
  | none => none

/-- Whether the block at path `p` is already in post-pass form: nothing for the
stripper to do and nothing for the resolver to add (the class the resolver
would pick, if any, is already on the block). -/
def processedAt (root : Node) (p : List Nat) : Bool :=
  match getAt p root with
  | some (.elem _ k cs) =>
    !hasSpanList cs &&
      (match resolveLangClass root p.dropLast with
       | some c => k.contains c
       | none => true)
  | _ => true

/-- Example document: a Rouge-highlighted block inside a `.highlighter-rouge`
wrapper `div`, and a second block whose `pre` carries the language class
directly. -/
def exampleDoc : Node :=
  .elem "body" [] [
    .elem "div" ["highlighter-rouge", "language-ruby"] [
      .elem "pre" [] [.elem "code" [] [.elem "span" ["k"] [.text "def"], .text " x"]]],
    .elem "pre" ["language-js"] [.elem "code" [] [.text "let y"]]]

/-- The example document after one pass of the normalizer. -/
def exampleDocProcessed : Node :=
  .elem "body" [] [
    .elem "div" ["highlighter-rouge", "language-ruby"] [
      .elem "pre" [] [.elem "code" ["language-ruby"] [.text "def x"]]],
    .elem "pre" ["language-js"] [.elem "code" ["language-js"] [.text "let y"]]]

/-- A document whose single block holds nested markup that is not a `span`. -/
def emDoc : Node := .elem "pre" [] [.elem "code" [] [.elem "em" [] [.text "x"]]]

/-- A document whose single block holds one Rouge span. -/
def spanDoc : Node := .elem "pre" [] [.elem "code" [] [.elem "span" [] [.text "x"]]]

/-- Relation between the original document and an intermediate state of the
pass, `bs` being the blocks still to process: every element present in the
state has its original tag and its original class list, except that a node no
longer awaiting processing may have gained one `language-*` token at the end. -/
def classEvolution (root s : Node) (bs : List (List Nat)) : Prop :=
  ∀ q t k cs, getAt q s = some (.elem t k cs) →
    ∃ k0 cs0, getAt q root = some (.elem t k0 cs0) ∧
      (k = k0 ∨ (q ∉ bs ∧ ∃ c, strStartsWith c "language-" = true ∧ k = k0 ++ [c]))

/-! ### Lemmas on `listModify` -/

theorem listModify_get_self (f : α → α) :
    ∀ (l : List α) (i : Nat), (listModify i f l)[i]? = (l[i]?).map f
  | [], i => by cases i <;> simp [listModify]
  | x :: xs, 0 => by simp [listModify]
  | x :: xs, i + 1 => by simp [listModify, listModify_get_self f xs i]

theorem listModify_get_ne (f : α → α) :
    ∀ (l : List α) (i j : Nat), i ≠ j → (listModify i f l)[j]? = l[j]?
  | [], i, j, _ => by simp [listModify]
  | x :: xs, 0, 0, h => absurd rfl h
  | x :: xs, 0, j + 1, _ => by simp [listModify]
  | x :: xs, i + 1, 0, _ => by simp [listModify]
  | x :: xs, i + 1, j + 1, h => by
    have hij : i ≠ j := fun hc => h (by simp [hc])
    simp [listModify, listModify_get_ne f xs i j hij]

theorem listModify_length (f : α → α) :
    ∀ (l : List α) (i : Nat), (listModify i f l).length = l.length
  | [], i => by simp [listModify]
  | x :: xs, 0 => by simp [listModify]
  | x :: xs, i + 1 => by simp [listModify, listModify_length f xs i]

theorem listModify_id_of_fix (f : α → α) :
    ∀ (l : List α) (i : Nat) (c : α), l[i]? = some c → f c = c → listModify i f l = l
  | [], i, c, h, _ => by simp at h
  | x :: xs, 0, c, h, hf => by
    simp at h
    simp [listModify, h ▸ hf]
  | x :: xs, i + 1, c, h, hf => by
    simp at h
    simp [listModify, listModify_id_of_fix f xs i c h hf]

/-! ### Lemmas on `getAt` and `modifyAt` -/

theorem getAt_cons (j : Nat) (q : List Nat) (n : Node) :
    getAt (j :: q) n = (n.childrenOf[j]?).bind fun c => getAt q c := by
  cases n with
  | text s => simp [getAt, Node.childrenOf]
  | elem t k cs => cases h : cs[j]? <;> simp [getAt, Node.childrenOf, h]

theorem getAt_append (q r : List Nat) :
    ∀ s : Node, getAt (q ++ r) s = (getAt q s).bind fun n => getAt r n := by
  induction q with
  | nil => intro s; simp [getAt]
  | cons j q ih =>
    intro s
    rw [List.cons_append, getAt_cons, getAt_cons]
    cases s.childrenOf[j]? with
    | none => simp
    | some c => simp [ih c]

theorem isSome_getAt_of_append (q r : List Nat) (s : Node)
    (h : (getAt (q ++ r) s).isSome = true) : (getAt q s).isSome = true := by
  rw [getAt_append] at h
  cases hq : getAt q s with
  | none => rw [hq] at h; simp at h
  | some n => simp

theorem modifyAt_append (q r : List Nat) (f : Node → Node) :
    ∀ s : Node, modifyAt (q ++ r) f s = modifyAt q (modifyAt r f) s := by
  induction q with
  | nil => intro s; simp [modifyAt]
  | cons j q ih =>
    intro s
    cases s with
    | text str => simp [modifyAt]
    | elem t k cs =>
      show Node.elem t k (listModify j (modifyAt (q ++ r) f) cs) =
        Node.elem t k (listModify j (modifyAt q (modifyAt r f)) cs)
      have : modifyAt (q ++ r) f = modifyAt q (modifyAt r f) := funext ih
      rw [this]

theorem getAt_modifyAt_self (p : List Nat) (f : Node → Node) :
    ∀ s : Node, getAt p (modifyAt p f s) = (getAt p s).map f := by
  induction p with
  | nil => intro s; simp [getAt, modifyAt]
  | cons i p ih =>
    intro s
    cases s with
    | text str => simp [getAt, modifyAt]
    | elem t k cs =>
      show getAt (i :: p) (Node.elem t k (listModify i (modifyAt p f) cs)) = _
      rw [getAt_cons, getAt_cons]
      simp only [Node.childrenOf]
      rw [listModify_get_self]
      cases cs[i]? with
      | none => simp
      | some c => simp [ih c]

theorem getAt_modifyAt_divergent (p : List Nat) (f : Node → Node) :
    ∀ (q : List Nat) (s : Node), p.isPrefixOf q = false → q.isPrefixOf p = false →
      getAt q (modifyAt p f s) = getAt q s := by
  induction p with
  | nil => intro q s hp _; simp [List.isPrefixOf] at hp
  | cons i p ih =>
    intro q s hp hq
    cases q with
    | nil => simp [List.isPrefixOf] at hq
    | cons j q =>
      cases s with
      | text str => simp [modifyAt]
      | elem t k cs =>
        show getAt (j :: q) (Node.elem t k (listModify i (modifyAt p f) cs)) = _
        rw [getAt_cons, getAt_cons]
        simp only [Node.childrenOf]
        by_cases hij : i = j
        · subst hij
          simp [List.isPrefixOf] at hp hq
          rw [listModify_get_self]
          cases cs[i]? with
          | none => simp
          | some c => simp [ih q c hp hq]
        · rw [listModify_get_ne _ _ _ _ hij]

theorem modifyAt_meta (r : List Nat) (f : Node → Node) (n : Node) (h : r ≠ []) :
    (modifyAt r f n).tagOf = n.tagOf ∧ (modifyAt r f n).classesOf = n.classesOf ∧
      (modifyAt r f n).childrenOf.length = n.childrenOf.length := by
  cases r with
  | nil => exact absurd rfl h
  | cons i p =>
    cases n with
    | text s => exact ⟨rfl, rfl, rfl⟩
    | elem t k cs =>
      refine ⟨rfl, rfl, ?_⟩
      show (listModify i (modifyAt p f) cs).length = cs.length
      exact listModify_length _ _ _

theorem modifyAt_id_of_fix (p : List Nat) (f : Node → Node) :
    ∀ (s n : Node), getAt p s = some n → f n = n → modifyAt p f s = s := by
  induction p with
  | nil =>
    intro s n h hf
    simp [getAt] at h
    simp [modifyAt, h ▸ hf]
  | cons i p ih =>
    intro s n h hf
    cases s with
    | text str => rfl
    | elem t k cs =>
      rw [getAt_cons] at h
      show Node.elem t k (listModify i (modifyAt p f) cs) = Node.elem t k cs
      cases hc : cs[i]? with
      | none => simp [Node.childrenOf, hc] at h
      | some c =>
        simp [Node.childrenOf, hc] at h
        rw [listModify_id_of_fix _ cs i c hc (ih c n h hf)]

/-! ### Boolean prefix lemmas -/

theorem isPrefixOf_append (p r : List Nat) : p.isPrefixOf (p ++ r) = true := by
  simp

theorem isPrefixOf_refl (p : List Nat) : p.isPrefixOf p = true := by
  simp

theorem eq_append_of_isPrefixOf (p q : List Nat) (h : p.isPrefixOf q = true) :
    ∃ r, q = p ++ r := by
  simp only [List.isPrefixOf_iff_prefix] at h
  obtain ⟨r, hr⟩ := h
  exact ⟨r, hr.symm⟩

theorem isPrefixOf_trans (a b c : List Nat)
    (h1 : a.isPrefixOf b = true) (h2 : b.isPrefixOf c = true) :
    a.isPrefixOf c = true := by
  simp only [List.isPrefixOf_iff_prefix] at h1 h2 ⊢
  exact h1.trans h2

theorem dropLast_isPrefixOf (p : List Nat) : p.dropLast.isPrefixOf p = true := by
  simp only [List.isPrefixOf_iff_prefix]
  exact List.dropLast_prefix p

/-- A preserved-shape step: modifying at `p` does not change lookup success at
any `q` not at or below `p`. -/
theorem isSome_getAt_modifyAt (p q : List Nat) (f : Node → Node) (s : Node)
    (h : p.isPrefixOf q = false) :
    (getAt q (modifyAt p f s)).isSome = (getAt q s).isSome := by
  cases hqp : q.isPrefixOf p with
  | false => rw [getAt_modifyAt_divergent p f q s h hqp]
  | true =>
    obtain ⟨r, hr⟩ := eq_append_of_isPrefixOf q p hqp
    subst hr
    rw [modifyAt_append, getAt_modifyAt_self]
    cases getAt q s <;> simp

/-! ### Text content preservation -/

theorem textContentList_listModify (g : Node → Node)
    (hg : ∀ m, (g m).textContent = m.textContent) :
    ∀ (cs : List Node) (i : Nat), textContentList (listModify i g cs) = textContentList cs
  | [], _ => by simp [listModify]
  | c :: cs, 0 => by simp [listModify, textContentList, hg c]
  | c :: cs, i + 1 => by
    simp [listModify, textContentList, textContentList_listModify g hg cs i]

theorem textContent_modifyAt (p : List Nat) (f : Node → Node)
    (hf : ∀ m, (f m).textContent = m.textContent) :
    ∀ s : Node, (modifyAt p f s).textContent = s.textContent := by
  induction p with
  | nil => exact hf
  | cons i p ih =>
    intro s
    cases s with
    | text str => rfl
    | elem t k cs =>
      show (Node.elem t k (listModify i (modifyAt p f) cs)).textContent = _
      simp only [Node.textContent]
      exact textContentList_listModify (modifyAt p f) ih cs i

theorem textContent_stripIfSpan (n : Node) : (stripIfSpan n).textContent = n.textContent := by
  cases n with
  | text s => rfl
  | elem t k cs =>
    show (stripIfSpan (Node.elem t k cs)).textContent = textContentList cs
    rw [stripIfSpan]
    by_cases hsp : hasSpanList cs
    · simp only [hsp, if_true]
      by_cases htxt : (textContentList cs == "") = true
      · simp only [htxt, if_true, Node.textContent, textContentList]
        exact (eq_of_beq htxt).symm
      · simp only [htxt]
        simp only [if_false, Node.textContent, textContentList]
        exact String.append_empty _
    · simp [hsp, Node.textContent]

theorem textContent_applyLangClass (lc : Option String) (n : Node) :
    (applyLangClass lc n).textContent = n.textContent := by
  cases n with
  | text s => cases lc <;> simp [applyLangClass, Node.textContent]
  | elem t k cs =>
    cases lc with
    | none => simp [applyLangClass, Node.textContent]
    | some c =>
      show (if k.contains c then Node.elem t k cs else Node.elem t (k ++ [c]) cs).textContent = _
      split <;> simp [Node.textContent]

/-- The combined per-block mutation preserves the visible character sequence. -/
theorem textContent_blockMutation (lc : Option String) (m : Node) :
    (blockMutation lc m).textContent = m.textContent := by
  rw [blockMutation, textContent_applyLangClass, textContent_stripIfSpan]

/-! ### Frame lemmas: a modification at `p` seen from an unrelated path `q` -/

theorem tagAt_modifyAt (p q : List Nat) (f : Node → Node) (s : Node)
    (h : p.isPrefixOf q = false) : tagAt (modifyAt p f s) q = tagAt s q := by
  cases hqp : q.isPrefixOf p with
  | false => unfold tagAt; rw [getAt_modifyAt_divergent p f q s h hqp]
  | true =>
    obtain ⟨r, hr⟩ := eq_append_of_isPrefixOf q p hqp
    have hrne : r ≠ [] := by
      rintro rfl
      rw [List.append_nil] at hr
      subst hr
      rw [isPrefixOf_refl] at h
      exact Bool.noConfusion h
    subst hr
    unfold tagAt
    rw [modifyAt_append, getAt_modifyAt_self]
    cases getAt q s with
    | none => rfl
    | some n => exact (modifyAt_meta r _ n hrne).1

theorem classesAt_modifyAt (p q : List Nat) (f : Node → Node) (s : Node)
    (h : p.isPrefixOf q = false) : classesAt (modifyAt p f s) q = classesAt s q := by
  cases hqp : q.isPrefixOf p with
  | false => unfold classesAt; rw [getAt_modifyAt_divergent p f q s h hqp]
  | true =>
    obtain ⟨r, hr⟩ := eq_append_of_isPrefixOf q p hqp
    have hrne : r ≠ [] := by
      rintro rfl
      rw [List.append_nil] at hr
      subst hr
      rw [isPrefixOf_refl] at h
      exact Bool.noConfusion h
    subst hr
    unfold classesAt
    rw [modifyAt_append, getAt_modifyAt_self]
    cases getAt q s with
    | none => rfl
    | some n => exact (modifyAt_meta r _ n hrne).2.1

theorem childCountAt_modifyAt (p q : List Nat) (f : Node → Node) (s : Node)
    (h : p.isPrefixOf q = false) : childCountAt (modifyAt p f s) q = childCountAt s q := by
  cases hqp : q.isPrefixOf p with
  | false => unfold childCountAt; rw [getAt_modifyAt_divergent p f q s h hqp]
  | true =>
    obtain ⟨r, hr⟩ := eq_append_of_isPrefixOf q p hqp
    have hrne : r ≠ [] := by
      rintro rfl
      rw [List.append_nil] at hr
      subst hr
      rw [isPrefixOf_refl] at h
      exact Bool.noConfusion h
    subst hr
    unfold childCountAt
    rw [modifyAt_append, getAt_modifyAt_self]
    cases getAt q s with
    | none => rfl
    | some n =>
      cases r with
      | nil => exact absurd rfl hrne
      | cons i p' =>
        cases n with
        | text str => rfl
        | elem t k cs =>
          show (match Node.elem t k (listModify i (modifyAt p' f) cs) with
            | Node.elem _ _ cs => some cs.length
            | Node.text _ => none) = _
          simp [listModify_length]

theorem textAt_modifyAt (p q : List Nat) (f : Node → Node) (s : Node)
    (h : p.isPrefixOf q = false)
    (hf : ∀ m, (f m).textContent = m.textContent) :
    textAt (modifyAt p f s) q = textAt s q := by
  cases hqp : q.isPrefixOf p with
  | false => unfold textAt; rw [getAt_modifyAt_divergent p f q s h hqp]
  | true =>
    obtain ⟨r, hr⟩ := eq_append_of_isPrefixOf q p hqp
    subst hr
    unfold textAt
    rw [modifyAt_append, getAt_modifyAt_self]
    cases getAt q s with
    | none => rfl
    | some n => exact textContent_modifyAt r f hf n

/-! ### Enumeration lemmas -/

mutual

theorem enumAux_shape (n : Node) (u : Bool) (pref : List Nat) (q : List Nat)
    (hq : q ∈ enumAux n u pref) :
    ∃ r, q = pref ++ r ∧ (∃ k2 cs2, getAt r n = some (.elem "code" k2 cs2)) ∧
      (r = [] → u = true) := by
  cases n with
  | text s => simp [enumAux] at hq
  | elem t k cs =>
    rw [enumAux] at hq
    rcases List.mem_append.mp hq with h1 | h2
    · by_cases hc : (u && t == "code") = true
      · rw [if_pos hc] at h1
        simp at h1
        subst h1
        obtain ⟨hu, ht⟩ : u = true ∧ t = "code" := by simpa using hc
        refine ⟨[], by simp, ⟨k, cs, ?_⟩, fun _ => hu⟩
        simp [getAt, ht]
      · rw [if_neg hc] at h1
        simp at h1
    · obtain ⟨j, r, c, hq2, hcj, hcode⟩ :=
        enumList_shape cs (u || t == "pre") pref 0 q h2
      refine ⟨j :: r, by simpa using hq2, ?_, by simp⟩
      rw [getAt_cons]
      simp only [Node.childrenOf, hcj, Option.bind_some]
      exact hcode

theorem enumList_shape (cs : List Node) (u : Bool) (pref : List Nat) (i : Nat)
    (q : List Nat) (hq : q ∈ enumList cs u pref i) :
    ∃ j r c, q = pref ++ (i + j) :: r ∧ cs[j]? = some c ∧
      ∃ k2 cs2, getAt r c = some (.elem "code" k2 cs2) := by
  cases cs with
  | nil => simp [enumList] at hq
  | cons c cs2 =>
    rw [enumList] at hq
    rcases List.mem_append.mp hq with h1 | h2
    · obtain ⟨r, hr, hcode, _⟩ := enumAux_shape c u (pref ++ [i]) q h1
      exact ⟨0, r, c, by simpa using hr, by simp, hcode⟩
    · obtain ⟨j, r, c2, hq2, hcj, hcode⟩ := enumList_shape cs2 u pref (i + 1) q h2
      refine ⟨j + 1, r, c2, ?_, by simpa using hcj, hcode⟩
      rw [hq2]
      have : i + 1 + j = i + (j + 1) := by omega
      rw [this]

end

mutual

theorem enumAux_nodup (n : Node) (u : Bool) (pref : List Nat) :
    (enumAux n u pref).Nodup := by
  cases n with
  | text s => simp [enumAux]
  | elem t k cs =>
    rw [enumAux]
    refine List.Nodup.append ?_ (enumList_nodup cs (u || t == "pre") pref 0) ?_
    · by_cases hc : (u && t == "code") = true
      · rw [if_pos hc]; exact List.nodup_singleton _
      · rw [if_neg hc]; exact List.nodup_nil
    · intro q hq1 hq2
      by_cases hc : (u && t == "code") = true
      · rw [if_pos hc] at hq1
        simp at hq1
        obtain ⟨j, r, c, hq2e, _, _⟩ :=
          enumList_shape cs (u || t == "pre") pref 0 q hq2
        rw [hq1] at hq2e
        have hlen := congrArg List.length hq2e
        simp at hlen
      · rw [if_neg hc] at hq1
        simp at hq1

theorem enumList_nodup (cs : List Node) (u : Bool) (pref : List Nat) (i : Nat) :
    (enumList cs u pref i).Nodup := by
  cases cs with
  | nil => simp [enumList]
  | cons c cs2 =>
    rw [enumList]
    refine List.Nodup.append (enumAux_nodup c u (pref ++ [i]))
      (enumList_nodup cs2 u pref (i + 1)) ?_
    intro q hq1 hq2
    obtain ⟨r1, hr1, _, _⟩ := enumAux_shape c u (pref ++ [i]) q hq1
    obtain ⟨j, r2, c2, hr2, _, _⟩ := enumList_shape cs2 u pref (i + 1) q hq2
    rw [hr1] at hr2
    rw [List.append_assoc] at hr2
    have hinj := List.append_cancel_left hr2
    simp at hinj
    omega

end

/-- Every enumerated block path is nonempty: a matched `code` element has a
`pre` ancestor, hence is not the document root. -/
theorem enum_nonempty_path (root : Node) (q : List Nat) (h : q ∈ enumBlocksOf root) :
    q ≠ [] := by
  obtain ⟨r, hq, _, hru⟩ := enumAux_shape root false [] q h
  intro hnil
  subst hnil
  simp at hq
  exact Bool.noConfusion (hru hq)

/-- Every enumerated block path resolves, in the original document, to a `code`
element. -/
theorem enum_valid (root : Node) (q : List Nat) (h : q ∈ enumBlocksOf root) :
    ∃ k cs, getAt q root = some (.elem "code" k cs) := by
  obtain ⟨r, hq, hcode, _⟩ := enumAux_shape root false [] q h
  simp at hq
  exact hq ▸ hcode

/-- The static block snapshot contains no duplicate paths. -/
theorem enum_nodup (root : Node) : (enumBlocksOf root).Nodup :=
  enumAux_nodup root false []

/-! ### `processBlock` characterization -/

theorem processBlock_skip_none (root : Node) (log : List (List Nat)) (p : List Nat)
    (h : getAt p root = none) : processBlock root log p = (root, log) := by
  simp [processBlock, h]

theorem processBlock_run (root : Node) (log : List (List Nat)) (p : List Nat)
    (code par : Node) (hp : getAt p root = some code)
    (hpar : getAt p.dropLast root = some par) (hne : p ≠ []) :
    processBlock root log p =
      (modifyAt p (blockMutation (resolveLangClass root p.dropLast)) root,
       log ++ [p]) := by
  cases p with
  | nil => exact absurd rfl hne
  | cons i p2 => simp [processBlock, hp, hpar]

/-! ### Structure of the per-block mutation -/

theorem find?_split (pred : α → Bool) :
    ∀ (l : List α) (b : α), l.find? pred = some b →
      ∃ l1 l2, l = l1 ++ b :: l2 ∧ ∀ x ∈ l1, pred x = false
  | [], b, h => by simp at h
  | a :: l, b, h => by
    by_cases ha : pred a = true
    · rw [List.find?_cons_of_pos _ ha] at h
      simp at h
      subst h
      exact ⟨[], l, rfl, by simp⟩
    · rw [List.find?_cons_of_neg _ (by simpa using ha)] at h
      obtain ⟨l1, l2, hl, hpre⟩ := find?_split pred l b h
      refine ⟨a :: l1, l2, by simp [hl], ?_⟩
      intro x hx
      rcases List.mem_cons.mp hx with rfl | hx2
      · simpa using ha
      · exact hpre x hx2

theorem stripIfSpan_text (s : String) : stripIfSpan (.text s) = .text s := by
  simp [stripIfSpan]

theorem applyLangClass_text (lc : Option String) (s : String) :
    applyLangClass lc (.text s) = .text s := by
  cases lc <;> simp [applyLangClass]

theorem blockMutation_text (lc : Option String) (s : String) :
    blockMutation lc (.text s) = .text s := by
  rw [blockMutation, stripIfSpan_text, applyLangClass_text]

theorem stripIfSpan_elem_cases (t : String) (k : List String) (cs : List Node) :
    (hasSpanList cs = false ∧ stripIfSpan (.elem t k cs) = .elem t k cs) ∨
    (hasSpanList cs = true ∧
      (stripIfSpan (.elem t k cs) = .elem t k [] ∨
       ∃ s, stripIfSpan (.elem t k cs) = .elem t k [.text s])) := by
  by_cases hsp : hasSpanList cs = true
  · refine Or.inr ⟨hsp, ?_⟩
    rw [stripIfSpan]
    rw [if_pos hsp]
    by_cases htxt : (textContentList cs == "") = true
    · exact Or.inl (by rw [if_pos htxt])
    · exact Or.inr ⟨textContentList cs, by rw [if_neg htxt]⟩
  · refine Or.inl ⟨by simpa using hsp, ?_⟩
    rw [stripIfSpan]
    rw [if_neg hsp]

theorem applyLangClass_elem_cases (lc : Option String) (t : String) (k : List String)
    (cs : List Node) :
    applyLangClass lc (.elem t k cs) = .elem t k cs ∨
    ∃ c, lc = some c ∧ k.contains c = false ∧
      applyLangClass lc (.elem t k cs) = .elem t (k ++ [c]) cs := by
  cases lc with
  | none => exact Or.inl rfl
  | some c =>
    by_cases hc : k.contains c = true
    · have hm : c ∈ k := by simpa using hc
      exact Or.inl (by simp [applyLangClass, hm])
    · have hm : c ∉ k := by simpa using hc
      refine Or.inr ⟨c, rfl, by simpa using hc, ?_⟩
      simp [applyLangClass, hm]

theorem blockMutation_classes_none (m : Node) :
    (blockMutation none m).classesOf = m.classesOf ∧
    (blockMutation none m).isElem = m.isElem := by
  cases m with
  | text s => rw [blockMutation_text]; exact ⟨rfl, rfl⟩
  | elem t k cs =>
    rw [blockMutation]
    rcases stripIfSpan_elem_cases t k cs with ⟨_, hs⟩ | ⟨_, hs | ⟨s, hs⟩⟩
    · rw [hs]; exact ⟨rfl, rfl⟩
    · rw [hs]; exact ⟨rfl, rfl⟩
    · rw [hs]; exact ⟨rfl, rfl⟩

theorem resolveLang_startsWith (root : Node) (pp : List Nat) (c : String)
    (h : resolveLangClass root pp = some c) : strStartsWith c "language-" = true := by
  unfold resolveLangClass at h
  have h2 := List.find?_some h
  exact h2

theorem processBlock_state (root : Node) (log : List (List Nat)) (p : List Nat) :
    (processBlock root log p).1 = root ∨
    (processBlock root log p).1 =
      modifyAt p (blockMutation (resolveLangClass root p.dropLast)) root := by
  cases hp : getAt p root with
  | none => rw [processBlock_skip_none root log p hp]; exact Or.inl rfl
  | some code =>
    cases p with
    | nil => exact Or.inl (by simp [processBlock, hp])
    | cons i p2 =>
      cases hpar : getAt (i :: p2).dropLast root with
      | none => exact Or.inl (by simp [processBlock, hp, hpar])
      | some par =>
        exact Or.inr
          (by rw [processBlock_run root log (i :: p2) code par hp hpar (by simp)])

theorem processedAt_spec (root : Node) (p : List Nat) (t : String) (k : List String)
    (cs : List Node) (hp : getAt p root = some (.elem t k cs))
    (h : processedAt root p = true) :
    hasSpanList cs = false ∧
      ∀ c, resolveLangClass root p.dropLast = some c → k.contains c = true := by
  rw [processedAt, hp] at h
  cases hres : resolveLangClass root p.dropLast with
  | none =>
    rw [hres] at h
    simp at h
    refine ⟨h, ?_⟩
    intro c hc
    exact Option.noConfusion hc
  | some c =>
    rw [hres] at h
    simp at h
    refine ⟨h.1, ?_⟩
    intro c2 hc2
    injection hc2 with hcc
    subst hcc
    simpa using h.2

theorem isSome_getAt_dropLast (p : List Nat) (s : Node)
    (h : (getAt p s).isSome = true) : (getAt p.dropLast s).isSome = true := by
  obtain ⟨r, hr⟩ := eq_append_of_isPrefixOf p.dropLast p (dropLast_isPrefixOf p)
  rw [hr] at h
  exact isSome_getAt_of_append p.dropLast r s h

/-! ### Fold lemmas over the block snapshot -/

theorem foldl_runStep_log :
    ∀ (bs : List (List Nat)) (s : Node) (log : List (List Nat)),
      (∀ p ∈ bs, p ≠ []) →
      (∀ p ∈ bs, (getAt p s).isSome = true) →
      bs.Nodup →
      (∀ p ∈ bs, ∀ q ∈ bs, p ≠ q → p.isPrefixOf q = false) →
      (bs.foldl runStep (s, log)).2 = log ++ bs
  | [], s, log, _, _, _, _ => by simp
  | p :: bs, s, log, hne, hval, hnd, hnp => by
    obtain ⟨code, hcode⟩ := Option.isSome_iff_exists.mp (hval p (by simp))
    have hpne : p ≠ [] := hne p (by simp)
    obtain ⟨par, hpar⟩ := Option.isSome_iff_exists.mp
      (isSome_getAt_dropLast p s (by rw [hcode]; rfl))
    rw [List.foldl_cons]
    rw [show runStep (s, log) p = processBlock s log p from rfl]
    rw [processBlock_run s log p code par hcode hpar hpne]
    have hrec := foldl_runStep_log bs
      (modifyAt p (blockMutation (resolveLangClass s p.dropLast)) s) (log ++ [p])
      (fun r hr => hne r (by simp [hr]))
      (fun r hr => by
        have hpr : p ≠ r := fun hc => (List.nodup_cons.mp hnd).1 (hc ▸ hr)
        rw [isSome_getAt_modifyAt p r _ s (hnp p (by simp) r (by simp [hr]) hpr)]
        exact hval r (by simp [hr]))
      (List.nodup_cons.mp hnd).2
      (fun a ha b hb hab => hnp a (by simp [ha]) b (by simp [hb]) hab)
    rw [hrec]
    simp

theorem foldl_runStep_processed (root : Node) :
    ∀ (bs : List (List Nat)) (log : List (List Nat)),
      (∀ p ∈ bs, p ≠ []) →
      (∀ p ∈ bs, ∃ t k cs, getAt p root = some (.elem t k cs)) →
      (∀ p ∈ bs, processedAt root p = true) →
      bs.foldl runStep (root, log) = (root, log ++ bs)
  | [], log, _, _, _ => by simp
  | p :: bs, log, hne, hval, hproc => by
    obtain ⟨t, k, cs, hcode⟩ := hval p (by simp)
    have hpne : p ≠ [] := hne p (by simp)
    obtain ⟨par, hpar⟩ := Option.isSome_iff_exists.mp
      (isSome_getAt_dropLast p root (by rw [hcode]; rfl))
    have hps := processedAt_spec root p t k cs hcode (hproc p (by simp))
    have hfix : blockMutation (resolveLangClass root p.dropLast) (.elem t k cs) =
        .elem t k cs := by
      rw [blockMutation]
      have hstrip : stripIfSpan (.elem t k cs) = .elem t k cs := by
        rw [stripIfSpan, if_neg (by rw [hps.1]; exact Bool.noConfusion)]
      rw [hstrip]
      cases hres : resolveLangClass root p.dropLast with
      | none => rfl
      | some c =>
        have hm : c ∈ k := by simpa using hps.2 c hres
        simp [applyLangClass, hm]
    rw [List.foldl_cons]
    rw [show runStep (root, log) p = processBlock root log p from rfl]
    rw [processBlock_run root log p _ par hcode hpar hpne]
    rw [modifyAt_id_of_fix p _ root _ hcode hfix]
    rw [foldl_runStep_processed root bs (log ++ [p])
      (fun r hr => hne r (by simp [hr]))
      (fun r hr => hval r (by simp [hr]))
      (fun r hr => hproc r (by simp [hr]))]
    simp

theorem foldl_runStep_frame (q : List Nat) :
    ∀ (bs : List (List Nat)) (acc : Node × List (List Nat)),
      (∀ p ∈ bs, p.isPrefixOf q = false) →
      tagAt (bs.foldl runStep acc).1 q = tagAt acc.1 q ∧
      classesAt (bs.foldl runStep acc).1 q = classesAt acc.1 q ∧
      childCountAt (bs.foldl runStep acc).1 q = childCountAt acc.1 q ∧
      textAt (bs.foldl runStep acc).1 q = textAt acc.1 q ∧
      ((∀ p ∈ bs, q.isPrefixOf p = false) →
        getAt q (bs.foldl runStep acc).1 = getAt q acc.1)
  | [], acc, _ => by simp
  | p :: bs, acc, h => by
    rw [List.foldl_cons]
    have hpq : p.isPrefixOf q = false := h p (by simp)
    have ih := foldl_runStep_frame q bs (runStep acc p) (fun r hr => h r (by simp [hr]))
    rcases processBlock_state acc.1 acc.2 p with hst | hst
    · rw [show (runStep acc p).1 = acc.1 from hst] at ih
      refine ⟨ih.1, ih.2.1, ih.2.2.1, ih.2.2.2.1, ?_⟩
      intro hq
      exact ih.2.2.2.2 (fun r hr => hq r (by simp [hr]))
    · rw [show (runStep acc p).1 =
          modifyAt p (blockMutation (resolveLangClass acc.1 p.dropLast)) acc.1
          from hst] at ih
      refine ⟨ih.1.trans (tagAt_modifyAt p q _ acc.1 hpq),
        ih.2.1.trans (classesAt_modifyAt p q _ acc.1 hpq),
        ih.2.2.1.trans (childCountAt_modifyAt p q _ acc.1 hpq),
        ih.2.2.2.1.trans
          (textAt_modifyAt p q _ acc.1 hpq (fun m => textContent_blockMutation _ m)), ?_⟩
      intro hq
      rw [ih.2.2.2.2 (fun r hr => hq r (by simp [hr]))]
      exact getAt_modifyAt_divergent p _ q acc.1 hpq (hq p (by simp))

/-! ### Class evolution: the pass only appends at most one `language-*` token -/

theorem blockMutation_elem_shape (lc : Option String) (t1 : String)
    (k1 : List String) (cs1 : List Node) :
    ∃ k2 cs2, blockMutation lc (.elem t1 k1 cs1) = .elem t1 k2 cs2 ∧
      (k2 = k1 ∨ ∃ c, lc = some c ∧ k2 = k1 ++ [c]) ∧
      (cs2 = cs1 ∨ cs2 = [] ∨ ∃ s3, cs2 = [.text s3]) := by
  rw [blockMutation]
  rcases stripIfSpan_elem_cases t1 k1 cs1 with ⟨_, hs⟩ | ⟨_, hs | ⟨s3, hs⟩⟩
  · rw [hs]
    rcases applyLangClass_elem_cases lc t1 k1 cs1 with hA | ⟨c, hlc, _, hA⟩
    · exact ⟨k1, cs1, hA, Or.inl rfl, Or.inl rfl⟩
    · exact ⟨k1 ++ [c], cs1, hA, Or.inr ⟨c, hlc, rfl⟩, Or.inl rfl⟩
  · rw [hs]
    rcases applyLangClass_elem_cases lc t1 k1 [] with hA | ⟨c, hlc, _, hA⟩
    · exact ⟨k1, [], hA, Or.inl rfl, Or.inr (Or.inl rfl)⟩
    · exact ⟨k1 ++ [c], [], hA, Or.inr ⟨c, hlc, rfl⟩, Or.inr (Or.inl rfl)⟩
  · rw [hs]
    rcases applyLangClass_elem_cases lc t1 k1 [.text s3] with hA | ⟨c, hlc, _, hA⟩
    · exact ⟨k1, [.text s3], hA, Or.inl rfl, Or.inr (Or.inr ⟨s3, rfl⟩)⟩
    · exact ⟨k1 ++ [c], [.text s3], hA, Or.inr ⟨c, hlc, rfl⟩, Or.inr (Or.inr ⟨s3, rfl⟩)⟩

theorem classEvolution_weaken (root s : Node) (p : List Nat) (bs : List (List Nat))
    (h : classEvolution root s (p :: bs)) : classEvolution root s bs := by
  intro q t k cs hq
  obtain ⟨k0, cs0, hq0, hdisj⟩ := h q t k cs hq
  refine ⟨k0, cs0, hq0, ?_⟩
  rcases hdisj with hk | ⟨hmem, hc⟩
  · exact Or.inl hk
  · exact Or.inr ⟨fun hq2 => hmem (List.mem_cons_of_mem p hq2), hc⟩

theorem classEvolution_step (root s : Node) (log : List (List Nat)) (p : List Nat)
    (bs : List (List Nat)) (hnotin : p ∉ bs)
    (hinv : classEvolution root s (p :: bs)) :
    classEvolution root (processBlock s log p).1 bs := by
  rcases processBlock_state s log p with hst | hst
  · rw [hst]
    exact classEvolution_weaken root s p bs hinv
  · rw [hst]
    intro q t k cs hq
    cases hpq : p.isPrefixOf q with
    | false =>
      cases hqp : q.isPrefixOf p with
      | false =>
        rw [getAt_modifyAt_divergent p _ q s hpq hqp] at hq
        exact classEvolution_weaken root s p bs hinv q t k cs hq
      | true =>
        obtain ⟨r, hr⟩ := eq_append_of_isPrefixOf q p hqp
        have hrne : r ≠ [] := by
          rintro rfl
          rw [List.append_nil] at hr
          rw [← hr, isPrefixOf_refl] at hpq
          exact Bool.noConfusion hpq
        rw [hr, modifyAt_append, getAt_modifyAt_self] at hq
        cases hm : getAt q s with
        | none => rw [hm] at hq; exact Option.noConfusion hq
        | some m =>
          rw [hm] at hq
          cases m with
          | text s2 =>
            exfalso
            cases r with
            | nil => exact hrne rfl
            | cons i r2 => exact Node.noConfusion (Option.some.inj hq)
          | elem t1 k1 cs1 =>
            cases r with
            | nil => exact absurd rfl hrne
            | cons i r2 =>
              have hq2 : Node.elem t1 k1
                  (listModify i
                    (modifyAt r2
                      (blockMutation (resolveLangClass s (q ++ i :: r2).dropLast)))
                    cs1) =
                  Node.elem t k cs := Option.some.inj hq
              injection hq2 with ht hk hcs
              rw [ht, hk] at hm
              obtain ⟨k0, cs0, hq0, hdisj⟩ := hinv q t k cs1 hm
              refine ⟨k0, cs0, hq0, ?_⟩
              rcases hdisj with hk0 | ⟨hmem, hc⟩
              · exact Or.inl hk0
              · exact Or.inr ⟨fun hq2 => hmem (List.mem_cons_of_mem p hq2), hc⟩
    | true =>
      obtain ⟨r, hr⟩ := eq_append_of_isPrefixOf p q hpq
      subst hr
      cases r with
      | nil =>
        simp only [List.append_nil] at hq ⊢
        rw [getAt_modifyAt_self] at hq
        cases hm : getAt p s with
        | none => rw [hm] at hq; exact Option.noConfusion hq
        | some m =>
          rw [hm] at hq
          cases m with
          | text s2 => simp [blockMutation_text] at hq
          | elem t1 k1 cs1 =>
            have hq2 : blockMutation (resolveLangClass s p.dropLast)
                (.elem t1 k1 cs1) = .elem t k cs := by simpa using hq
            obtain ⟨k2, cs2, hbm, hk2, _⟩ := blockMutation_elem_shape
              (resolveLangClass s p.dropLast) t1 k1 cs1
            rw [hbm] at hq2
            injection hq2 with ht hk hcs
            rw [ht] at hm
            obtain ⟨k0, cs0, hq0, hdisj⟩ := hinv p t k1 cs1 hm
            have hk10 : k1 = k0 := by
              rcases hdisj with hk0 | ⟨hmem, _⟩
              · exact hk0
              · exact absurd (List.mem_cons_self p bs) hmem
            refine ⟨k0, cs0, hq0, ?_⟩
            rcases hk2 with hk2 | ⟨c, hlc, hk2⟩
            · exact Or.inl (by rw [← hk, hk2, hk10])
            · refine Or.inr ⟨hnotin, c, resolveLang_startsWith s p.dropLast c hlc, ?_⟩
              rw [← hk, hk2, hk10]
      | cons i r2 =>
        rw [getAt_append, getAt_modifyAt_self] at hq
        cases hm : getAt p s with
        | none => rw [hm] at hq; exact Option.noConfusion hq
        | some m =>
          rw [hm] at hq
          have hq2 : getAt (i :: r2)
              (blockMutation (resolveLangClass s p.dropLast) m) =
              some (.elem t k cs) := by simpa using hq
          cases m with
          | text s2 =>
            rw [blockMutation_text] at hq2
            simp [getAt_cons, Node.childrenOf] at hq2
          | elem t1 k1 cs1 =>
            obtain ⟨k2, cs2, hbm, _, hcs2⟩ := blockMutation_elem_shape
              (resolveLangClass s p.dropLast) t1 k1 cs1
            rw [hbm] at hq2
            rcases hcs2 with hcs2 | hcs2 | ⟨s3, hcs2⟩
            · subst hcs2
              have hqs : getAt (p ++ i :: r2) s = some (.elem t k cs) := by
                rw [getAt_append, hm]
                show getAt (i :: r2) (Node.elem t1 k1 cs2) = some (Node.elem t k cs)
                rw [getAt_cons] at hq2 ⊢
                simpa only [Node.childrenOf] using hq2
              obtain ⟨k0, cs0, hq0, hdisj⟩ := hinv (p ++ i :: r2) t k cs hqs
              refine ⟨k0, cs0, hq0, ?_⟩
              rcases hdisj with hk0 | ⟨hmem, hc⟩
              · exact Or.inl hk0
              · exact Or.inr ⟨fun hq3 => hmem (List.mem_cons_of_mem p hq3), hc⟩
            · subst hcs2
              simp [getAt_cons, Node.childrenOf] at hq2
            · subst hcs2
              exfalso
              rw [getAt_cons] at hq2
              cases i with
              | zero =>
                cases r2 with
                | nil => simp [Node.childrenOf, getAt] at hq2
                | cons j r3 => simp [Node.childrenOf, getAt] at hq2
              | succ i2 => simp [Node.childrenOf] at hq2

theorem foldl_classEvolution (root : Node) :
    ∀ (bs : List (List Nat)) (acc : Node × List (List Nat)), bs.Nodup →
      classEvolution root acc.1 bs →
      classEvolution root ((bs.foldl runStep acc).1) []
  | [], acc, _, h => by simpa using h
  | p :: bs, acc, hnd, hinv => by
    rw [List.foldl_cons]
    exact foldl_classEvolution root bs (runStep acc p) (List.nodup_cons.mp hnd).2
      (classEvolution_step root acc.1 acc.2 p bs (List.nodup_cons.mp hnd).1 hinv)

/-! ### Claim theorems -/

/-- C1 (counterexample): a Code Block whose content contains a nested markup
element (an `em` element) is NOT replaced by its flattened plain-text
equivalent: the stripper only reacts to `span` elements, so after the whole
pass the block still holds the nested `em` markup instead of the flattened
text node. -/
theorem c1_counterexample :
    hasNestedMarkup (.elem "code" [] [.elem "em" [] [.text "x"]]) = true ∧
    getAt [0] (highlightInit true emDoc).1 =
      some (.elem "code" [] [.elem "em" [] [.text "x"]]) ∧
    getAt [0] (highlightInit true emDoc).1 ≠
      some (.elem "code" [] [.text "x"]) := by
  exact ⟨by decide, by decide, by decide⟩

/-- C1 (amended): for every processed Code Block whose content contains a
nested SPAN element, the stripper replaces the block content by the single
flattened plain-text node (or nothing when the text is empty); for a block
with no span descendant the content is left untouched. -/
theorem c1_strip_iff_span (root : Node) (log : List (List Nat)) (p : List Nat)
    (t : String) (k : List String) (cs : List Node) (par : Node)
    (hp : getAt p root = some (.elem t k cs))
    (hpar : getAt p.dropLast root = some par) (hne : p ≠ []) :
    (hasSpanList cs = true →
      ∃ k2, getAt p (processBlock root log p).1 =
        some (.elem t k2
          (if textContentList cs == "" then [] else [.text (textContentList cs)]))) ∧
    (hasSpanList cs = false →
      ∃ k2, getAt p (processBlock root log p).1 = some (.elem t k2 cs)) := by
  rw [processBlock_run root log p _ par hp hpar hne, getAt_modifyAt_self, hp]
  constructor
  · intro hsp
    have hstrip : stripIfSpan (.elem t k cs) =
        .elem t k (if textContentList cs == "" then [] else [.text (textContentList cs)]) := by
      rw [stripIfSpan, if_pos hsp]
    rcases applyLangClass_elem_cases (resolveLangClass root p.dropLast) t k
        (if textContentList cs == "" then [] else [.text (textContentList cs)]) with
      hA | ⟨c, _, _, hA⟩
    · exact ⟨k, by rw [Option.map_some', blockMutation, hstrip, hA]⟩
    · exact ⟨k ++ [c], by rw [Option.map_some', blockMutation, hstrip, hA]⟩
  · intro hsp
    have hstrip : stripIfSpan (.elem t k cs) = .elem t k cs := by
      rw [stripIfSpan, if_neg (by rw [hsp]; exact Bool.noConfusion)]
    rcases applyLangClass_elem_cases (resolveLangClass root p.dropLast) t k cs with
      hA | ⟨c, _, _, hA⟩
    · exact ⟨k, by rw [Option.map_some', blockMutation, hstrip, hA]⟩
    · exact ⟨k ++ [c], by rw [Option.map_some', blockMutation, hstrip, hA]⟩

/-- C1 (witness): the amended claim at the first block of the example
document, whose content holds a Rouge span. -/
theorem c1_strip_iff_span_witness :
    (hasSpanList [Node.elem "span" ["k"] [.text "def"], Node.text " x"] = true →
      ∃ k2, getAt [0, 0, 0] (processBlock exampleDoc [] [0, 0, 0]).1 =
        some (.elem "code" k2
          (if textContentList [Node.elem "span" ["k"] [.text "def"], Node.text " x"] == ""
            then []
            else [.text (textContentList
              [Node.elem "span" ["k"] [.text "def"], Node.text " x"])]))) ∧
    (hasSpanList [Node.elem "span" ["k"] [.text "def"], Node.text " x"] = false →
      ∃ k2, getAt [0, 0, 0] (processBlock exampleDoc [] [0, 0, 0]).1 =
        some (.elem "code" k2 [Node.elem "span" ["k"] [.text "def"], Node.text " x"])) :=
  c1_strip_iff_span exampleDoc [] [0, 0, 0] "code" []
    [Node.elem "span" ["k"] [.text "def"], Node.text " x"]
    (.elem "pre" [] [.elem "code" [] [.elem "span" ["k"] [.text "def"], .text " x"]])
    (by decide) (by decide) (by decide)

/-- C2: when the Highlighting Engine capability is absent the pass is a total
no-op: the document is returned unchanged (every path resolves to the same
node), and no highlight invocation is recorded. -/
theorem c2_capability_absent_noop (root : Node) :
    highlightInit false root = (root, []) ∧
    (∀ q, getAt q (highlightInit false root).1 = getAt q root) ∧
    (highlightInit false root).2 = [] := by
  refine ⟨by simp [highlightInit], fun q => by simp [highlightInit], by simp [highlightInit]⟩

/-- C3: the Language Class Resolver takes as class source the nearest
self-or-ancestor of the Container carrying the `highlighter-rouge` marker (the
Container itself when none carries it), selects the first `language-*` token
of the source in class-list order (everything before it does not match), and
when no token matches the block's class list is left unchanged without
error. -/
theorem c3_resolver (root : Node) (log : List (List Nat)) (p : List Nat)
    (code par : Node) (hp : getAt p root = some code)
    (hpar : getAt p.dropLast root = some par) (hne : p ≠ []) :
    ((∀ a ∈ ancestorPaths p.dropLast, hasMarkerAt root a = false) →
      classSourcePath root p.dropLast = p.dropLast) ∧
    (∀ w, closestRouge root p.dropLast = some w →
      hasMarkerAt root w = true ∧
      ∃ l1 l2, ancestorPaths p.dropLast = l1 ++ w :: l2 ∧
        ∀ a ∈ l1, hasMarkerAt root a = false) ∧
    (∀ c, resolveLangClass root p.dropLast = some c →
      strStartsWith c "language-" = true ∧
      ∃ l1 l2, classesAt root (classSourcePath root p.dropLast) = l1 ++ c :: l2 ∧
        ∀ x ∈ l1, strStartsWith x "language-" = false) ∧
    (resolveLangClass root p.dropLast = none →
      classesAt (processBlock root log p).1 p = classesAt root p) := by
  refine ⟨?_, ?_, ?_, ?_⟩
  · intro hall
    rw [classSourcePath]
    cases hcr : closestRouge root p.dropLast with
    | none => rfl
    | some w =>
      exfalso
      rw [closestRouge] at hcr
      have hw := List.find?_some hcr
      have hmem := List.mem_of_find?_eq_some hcr
      rw [hall w hmem] at hw
      exact Bool.noConfusion hw
  · intro w hw
    rw [closestRouge] at hw
    have h1 := List.find?_some hw
    obtain ⟨l1, l2, hsplit, hpre⟩ := find?_split _ _ w hw
    exact ⟨h1, l1, l2, hsplit, fun a ha => hpre a ha⟩
  · intro c hc
    have hsw := resolveLang_startsWith root p.dropLast c hc
    rw [resolveLangClass] at hc
    obtain ⟨l1, l2, hsplit, hpre⟩ := find?_split _ _ c hc
    exact ⟨hsw, l1, l2, hsplit, fun x hx => hpre x hx⟩
  · intro hnone
    rw [processBlock_run root log p _ par hp hpar hne]
    rw [classesAt, classesAt, getAt_modifyAt_self, hp, Option.map_some', hnone]
    exact (blockMutation_classes_none code).1

/-- C3 (witness): resolution at the first block of the example document: the
wrapper `div` is found as class source and `language-ruby` is selected. -/
theorem c3_resolver_witness :
    ((∀ a ∈ ancestorPaths [0, 0], hasMarkerAt exampleDoc a = false) →
      classSourcePath exampleDoc [0, 0] = [0, 0]) ∧
    (∀ w, closestRouge exampleDoc [0, 0] = some w →
      hasMarkerAt exampleDoc w = true ∧
      ∃ l1 l2, ancestorPaths [0, 0] = l1 ++ w :: l2 ∧
        ∀ a ∈ l1, hasMarkerAt exampleDoc a = false) ∧
    (∀ c, resolveLangClass exampleDoc [0, 0] = some c →
      strStartsWith c "language-" = true ∧
      ∃ l1 l2, classesAt exampleDoc (classSourcePath exampleDoc [0, 0]) = l1 ++ c :: l2 ∧
        ∀ x ∈ l1, strStartsWith x "language-" = false) ∧
    (resolveLangClass exampleDoc [0, 0] = none →
      classesAt (processBlock exampleDoc [] [0, 0, 0]).1 [0, 0, 0] =
        classesAt exampleDoc [0, 0, 0]) := by
  have h := c3_resolver exampleDoc [] [0, 0, 0]
    (.elem "code" [] [.elem "span" ["k"] [.text "def"], .text " x"])
    (.elem "pre" [] [.elem "code" [] [.elem "span" ["k"] [.text "def"], .text " x"]])
    (by decide) (by decide) (by decide)
  exact h

/-- C4: for every Code Block (nested markup or not), the per-block step of the
pass leaves its text content character-for-character identical; indeed the
whole document's visible text is unchanged. -/
theorem c4_text_preserved (root : Node) (log : List (List Nat)) (p : List Nat) :
    textAt (processBlock root log p).1 p = textAt root p ∧
    (processBlock root log p).1.textContent = root.textContent := by
  rcases processBlock_state root log p with hst | hst <;> rw [hst]
  · exact ⟨rfl, rfl⟩
  · constructor
    · rw [textAt, textAt, getAt_modifyAt_self]
      cases getAt p root with
      | none => rfl
      | some m => exact textContent_blockMutation _ m
    · exact textContent_modifyAt p _ (fun m => textContent_blockMutation _ m) root

/-- C5: when the capability is present and no enumerated block is nested
inside another (the well-formed shape), the recorded highlight invocations are
exactly the enumerated blocks, in document order — one invocation per block,
after that block's stripping and resolution, including blocks with no span and
no `language-*` class anywhere. -/
theorem c5_invoked_once_in_order (root : Node)
    (h : ∀ p ∈ enumBlocksOf root, ∀ q ∈ enumBlocksOf root, p ≠ q →
      p.isPrefixOf q = false) :
    (highlightInit true root).2 = enumBlocksOf root ∧ (enumBlocksOf root).Nodup := by
  refine ⟨?_, enum_nodup root⟩
  show ((enumBlocksOf root).foldl runStep (root, [])).2 = enumBlocksOf root
  have hlog := foldl_runStep_log (enumBlocksOf root) root []
    (fun p hp => enum_nonempty_path root p hp)
    (fun p hp => by
      obtain ⟨k, cs, hk⟩ := enum_valid root p hp
      rw [hk]
      rfl)
    (enum_nodup root) h
  simpa using hlog

/-- C5 (witness): on the example document both blocks are invoked exactly
once, in document order. -/
theorem c5_invoked_once_in_order_witness :
    (highlightInit true exampleDoc).2 = enumBlocksOf exampleDoc ∧
      (enumBlocksOf exampleDoc).Nodup :=
  c5_invoked_once_in_order exampleDoc (by decide)

/-- C6: a block whose Container is missing (its parent path resolves to no
node) is skipped: no document mutation and no highlight invocation, and the
fold simply continues with the remaining blocks; the pass is a total function,
so no exception can escape it on any input. -/
theorem c6_malformed_block_skipped (root : Node) (log : List (List Nat))
    (p : List Nat) (h : getAt p.dropLast root = none) :
    processBlock root log p = (root, log) ∧
    ∀ rest : List (List Nat),
      (p :: rest).foldl runStep (root, log) = rest.foldl runStep (root, log) := by
  have hnone : getAt p root = none := by
    cases p with
    | nil => simp [getAt] at h
    | cons i p2 =>
      obtain ⟨r, hr⟩ := eq_append_of_isPrefixOf (i :: p2).dropLast (i :: p2)
        (dropLast_isPrefixOf (i :: p2))
      rw [hr, getAt_append, h]
      rfl
  refine ⟨processBlock_skip_none root log p hnone, ?_⟩
  intro rest
  rw [List.foldl_cons, show runStep (root, log) p = processBlock root log p from rfl,
    processBlock_skip_none root log p hnone]

/-- C6 (witness): a path with a missing parent in the `em` document is skipped
while the document's real block still gets processed. -/
theorem c6_malformed_block_skipped_witness :
    processBlock emDoc [] [2, 0] = (emDoc, []) ∧
    [[2, 0], [0]].foldl runStep (emDoc, []) = [[0]].foldl runStep (emDoc, []) :=
  ⟨(c6_malformed_block_skipped emDoc [] [2, 0] (by decide)).1,
   (c6_malformed_block_skipped emDoc [] [2, 0] (by decide)).2 [[0]]⟩

/-- C7: the class-adding step of the resolver is idempotent on a block whose
class list is a token set (no duplicates, as `classList` guarantees): running
it twice equals running it once, the class ends up with at most one instance,
and when the class is already present no mutation occurs at all. -/
theorem c7_resolver_idempotent (c t : String) (k : List String) (cs : List Node)
    (hnd : k.Nodup) :
    applyLangClass (some c) (applyLangClass (some c) (.elem t k cs)) =
      applyLangClass (some c) (.elem t k cs) ∧
    (applyLangClass (some c)
      (applyLangClass (some c) (.elem t k cs))).classesOf.count c ≤ 1 ∧
    (k.contains c = true → applyLangClass (some c) (.elem t k cs) = .elem t k cs) := by
  by_cases hc : c ∈ k
  · have h1 : applyLangClass (some c) (.elem t k cs) = .elem t k cs := by
      simp [applyLangClass, hc]
    refine ⟨by rw [h1, h1], ?_, fun _ => h1⟩
    rw [h1, h1]
    show k.count c ≤ 1
    exact List.nodup_iff_count_le_one.mp hnd c
  · have h1 : applyLangClass (some c) (.elem t k cs) = .elem t (k ++ [c]) cs := by
      simp [applyLangClass, hc]
    have h2 : applyLangClass (some c) (.elem t (k ++ [c]) cs) = .elem t (k ++ [c]) cs := by
      simp [applyLangClass]
    refine ⟨by rw [h1, h2], ?_, fun hcc => absurd (by simpa using hcc) hc⟩
    rw [h1, h2]
    show (k ++ [c]).count c ≤ 1
    rw [List.count_append]
    rw [List.count_eq_zero.mpr hc]
    simp

/-- C7 (witness): re-resolving `language-go` on a block already carrying it
mutates nothing and keeps a single instance. -/
theorem c7_resolver_idempotent_witness :
    applyLangClass (some "language-go")
        (applyLangClass (some "language-go") (.elem "code" ["language-go"] [])) =
      applyLangClass (some "language-go") (.elem "code" ["language-go"] []) ∧
    (applyLangClass (some "language-go")
      (applyLangClass (some "language-go")
        (.elem "code" ["language-go"] []))).classesOf.count "language-go" ≤ 1 ∧
    (List.contains ["language-go"] "language-go" = true →
      applyLangClass (some "language-go") (.elem "code" ["language-go"] []) =
        .elem "code" ["language-go"] []) :=
  c7_resolver_idempotent "language-go" "code" ["language-go"] [] (by decide)

/-- C8: invoking the pass on an already-processed document — no spans remain
to strip and every block already carries its resolved class (when one
resolves) — leaves the document exactly unchanged and records one highlight
invocation per enumerated block. -/
theorem c8_second_pass_noop (root : Node)
    (h : ∀ p ∈ enumBlocksOf root, processedAt root p = true) :
    highlightInit true root = (root, enumBlocksOf root) := by
  show (enumBlocksOf root).foldl runStep (root, []) = _
  rw [foldl_runStep_processed root (enumBlocksOf root) []
    (fun p hp => enum_nonempty_path root p hp)
    (fun p hp => by
      obtain ⟨k, cs, hk⟩ := enum_valid root p hp
      exact ⟨"code", k, cs, hk⟩)
    h]
  simp

/-- C8 (witness): the example document after one pass is processed, and a
second pass returns it unchanged while invoking each block once more. -/
theorem c8_second_pass_noop_witness :
    highlightInit true exampleDocProcessed =
      (exampleDocProcessed, enumBlocksOf exampleDocProcessed) :=
  c8_second_pass_noop exampleDocProcessed (by decide)

/-- C9 (counterexample): the pass does remove elements: stripping the span
document removes its nested `span` element (the element count drops), refuting
the claim that no element of the document is created or removed. -/
theorem c9_counterexample :
    (highlightInit true spanDoc).1.countElems ≠ spanDoc.countElems ∧
    getAt [0, 0] spanDoc = some (.elem "span" [] [.text "x"]) ∧
    getAt [0, 0] (highlightInit true spanDoc).1 = some (.text "x") := by
  exact ⟨by decide, by decide, by decide⟩

/-- C9 (amended): the pass mutates only Code Block subtrees: every path not at
or below an enumerated block keeps its tag, class list, child count and text
content, and a path additionally not above any block keeps its entire
subtree.  Nested markup inside a stripped block is the only structure removed. -/
theorem c9_frame_outside_blocks (root : Node) (q : List Nat)
    (h : ∀ p ∈ enumBlocksOf root, p.isPrefixOf q = false) :
    tagAt (highlightInit true root).1 q = tagAt root q ∧
    classesAt (highlightInit true root).1 q = classesAt root q ∧
    childCountAt (highlightInit true root).1 q = childCountAt root q ∧
    textAt (highlightInit true root).1 q = textAt root q ∧
    ((∀ p ∈ enumBlocksOf root, q.isPrefixOf p = false) →
      getAt q (highlightInit true root).1 = getAt q root) := by
  have hfr := foldl_runStep_frame q (enumBlocksOf root) (root, []) h
  exact hfr

/-- C9 (witness): the wrapper `div` of the example document keeps its tag,
classes, child count and text through the pass. -/
theorem c9_frame_outside_blocks_witness :
    tagAt (highlightInit true exampleDoc).1 [0] = tagAt exampleDoc [0] ∧
    classesAt (highlightInit true exampleDoc).1 [0] = classesAt exampleDoc [0] ∧
    childCountAt (highlightInit true exampleDoc).1 [0] = childCountAt exampleDoc [0] ∧
    textAt (highlightInit true exampleDoc).1 [0] = textAt exampleDoc [0] ∧
    ((∀ p ∈ enumBlocksOf exampleDoc, [0].isPrefixOf p = false) →
      getAt [0] (highlightInit true exampleDoc).1 = getAt [0] exampleDoc) :=
  c9_frame_outside_blocks exampleDoc [0] (by decide)

/-- C10: the pass never removes a class token: every element still present
after the pass has exactly its original class list, or its original class list
with a single `language-*` token appended, on every input document. -/
theorem c10_classes_grow_monotonically (root : Node) (q : List Nat) (t : String)
    (k : List String) (cs : List Node)
    (h : getAt q (highlightInit true root).1 = some (.elem t k cs)) :
    ∃ k0 cs0, getAt q root = some (.elem t k0 cs0) ∧
      (k = k0 ∨ ∃ c, strStartsWith c "language-" = true ∧ k = k0 ++ [c]) := by
  have hfold := foldl_classEvolution root (enumBlocksOf root) (root, [])
    (enum_nodup root)
    (fun q2 t2 k2 cs2 hq2 => ⟨k2, cs2, hq2, Or.inl rfl⟩)
  obtain ⟨k0, cs0, hq0, hdisj⟩ := hfold q t k cs h
  refine ⟨k0, cs0, hq0, ?_⟩
  rcases hdisj with hk | ⟨_, hc⟩
  · exact Or.inl hk
  · exact Or.inr hc

/-- C10 (witness): after the pass the first example block carries exactly its
original (empty) class list plus `language-ruby`. -/
theorem c10_classes_grow_monotonically_witness :
    ∃ k0 cs0, getAt [0, 0, 0] exampleDoc = some (.elem "code" k0 cs0) ∧
      (["language-ruby"] = k0 ∨
        ∃ c, strStartsWith c "language-" = true ∧ ["language-ruby"] = k0 ++ [c]) :=
  c10_classes_grow_monotonically exampleDoc [0, 0, 0] "code" ["language-ruby"]
    [.text "def x"] (by decide)

end HighlightInit
